import Mathlib

/-!
Verification of the Tamil hadith text pipeline.

This file shallowly embeds the text-processing core of the repository:
`clean_text.py` (garbled-character repair, `clean`), `clean4.py`
(residual Latin-letter cleanup, module level), `build_db.py`
(segmentation + persistence loop) and `extract_hadith.py` (standalone
segmentation loop).  Text buffers are `List Char`; each Python regex
substitution is embedded as a recursive scanner with the same
left-to-right, non-overlapping match semantics; fallible indexing
(`parts[i+1]`, `findall(...)[0]`) is embedded with `Except`.

Modelling conventions:
* Python `\s` is modelled by the ASCII whitespace characters used by
  the corpus (space, tab, newline, carriage return, vertical tab,
  form feed).
* Python `\d` is modelled by the ASCII digits `0`-`9` (the corpus
  numerals).
-/

/-- Characters of a string literal, used to write concrete buffers. -/
def cs (s : String) : List Char := s.data

/-- Tamil Unicode block test, the `[஀-௿]` character class. -/
def isTamil (c : Char) : Bool := 0x0B80 ≤ c.toNat && c.toNat ≤ 0x0BFF

/-- Whitespace test modelling Python `\s` / `str.strip` on this corpus. -/
def isWS (c : Char) : Bool :=
  c = ' ' || c = '\t' || c = '\n' || c = '\r' || c = Char.ofNat 0x0b || c = Char.ofNat 0x0c

/-- ASCII decimal digit, modelling `\d` on the corpus numerals. -/
def isPyDigit (c : Char) : Bool := '0' ≤ c && c ≤ '9'

/-- ASCII Latin letter, the `[A-Za-z]` character class. -/
def isLatin (c : Char) : Bool := ('A' ≤ c && c ≤ 'Z') || ('a' ≤ c && c ≤ 'z')

/-- Does `l` contain `p` as a contiguous substring (Python `p in l`)? -/
def containsSub (p : List Char) : List Char → Bool
  | [] => p.isEmpty
  | c :: rest => p.isPrefixOf (c :: rest) || containsSub p rest

/-- Python `str.rstrip`: drop trailing whitespace. -/
def rstripL (l : List Char) : List Char := (l.reverse.dropWhile isWS).reverse

/-- Python `str.strip`: drop leading and trailing whitespace. -/
def stripWS (l : List Char) : List Char := rstripL (l.dropWhile isWS)

/-- Python `text.split("\n")`: split into lines (never returns `[]`). -/
def splitNL : List Char → List (List Char)
  | [] => [[]]
  | c :: rest =>
    if c = '\n' then [] :: splitNL rest
    else
      match splitNL rest with
      | s :: ss => (c :: s) :: ss
      | [] => [[c]]

/-- Python `"\n".join(lines)`. -/
def joinNL : List (List Char) → List Char
  | [] => []
  | [s] => s
  | s :: ss => s ++ '\n' :: joinNL ss

/-- Python `re.sub(r"  +", " ", line)` (also `r' {2,}'` in `clean4.py`):
each maximal run of two or more spaces becomes a single space.  The
scanner drops a space while at least two are adjacent, which collapses
every such run to one space, exactly as the regex replacement does. -/
def collapse : List Char → List Char
  | ' ' :: ' ' :: rest => collapse (' ' :: rest)
  | c :: rest => c :: collapse rest
  | [] => []

/-! ## Model of `clean_text.py` (`clean`) -/

/-- Python `text.replace(a, r)` for a single-character pattern `a`:
every occurrence of `a` becomes the string `r`. -/
def replCharStr (a : Char) (r : List Char) : List Char → List Char
  | [] => []
  | c :: rest => if c = a then r ++ replCharStr a r rest else c :: replCharStr a r rest

/-- Scanner for a regex of shape `(?<=P)tgt(?=N)` replaced by a single
character `rep`: the lookarounds inspect the original neighbours (the
match consumes only `tgt`), so the scan carries the original previous
character. -/
def subPoint1Aux (pv : Option Char → Bool) (tgt : Char) (nx : Option Char → Bool)
    (rep : Char) : Option Char → List Char → List Char
  | _, [] => []
  | prev, c :: rest =>
    (if c = tgt ∧ pv prev = true ∧ nx rest.head? = true then rep else c) ::
      subPoint1Aux pv tgt nx rep (some c) rest

/-- Top-level entry for `subPoint1Aux` (no character precedes position 0). -/
def subPoint1 (pv : Option Char → Bool) (tgt : Char) (nx : Option Char → Bool)
    (rep : Char) (l : List Char) : List Char :=
  subPoint1Aux pv tgt nx rep none l

/-- Context test: the optional neighbour exists and is a Tamil character. -/
def optTamil (o : Option Char) : Bool :=
  match o with
  | some c => isTamil c
  | none => false

/-- Context test: the optional neighbour exists and is whitespace. -/
def optWS (o : Option Char) : Bool :=
  match o with
  | some c => isWS c
  | none => false

/-- Line 60: `re.sub(r"(?<=[஀-௿])\+(?=[஀-௿])", "ூ", text)`. -/
def plusTamil (l : List Char) : List Char := subPoint1 optTamil '+' optTamil 'ூ' l

/-- Line 61: `re.sub(r"(?<=[஀-௿])\+(?=\s)", "ூ", text)`. -/
def plusSpace (l : List Char) : List Char := subPoint1 optTamil '+' optWS 'ூ' l

/-- PHASE 4 first rule, `re.sub(r"\.\.(?!\.)", ".", text)`: a `..` not
followed by a third `.` collapses to `.`; on failure of the lookahead the
scan advances one character (Python regex semantics). -/
def fixDots : List Char → List Char
  | '.' :: '.' :: rest =>
    if rest.head? = some '.' then '.' :: fixDots ('.' :: rest)
    else '.' :: fixDots rest
  | c :: rest => c :: fixDots rest
  | [] => []

/-- PHASE 4 second rule, `text.replace(".,", ".")`. -/
def subPC : List Char → List Char
  | '.' :: ',' :: rest => '.' :: subPC rest
  | c :: rest => c :: subPC rest
  | [] => []

/-- PHASE 5 body of the line loop: rstrip the line, then collapse
multiple internal spaces when the stripped line is non-empty. -/
def lineClean (l : List Char) : List Char :=
  let r := rstripL l
  if (stripWS r).isEmpty then r else collapse r

/-- PHASE 6 first rule,
`re.sub(r"\n([஀-௿])\n([஀-௿])", "\n" + g1 + g2, text)`: a lone
Tamil-character line (preceded by a line break) is joined with a
following line starting with a Tamil character. -/
def sub1 : List Char → List Char
  | '\n' :: a :: '\n' :: b :: rest =>
    if isTamil a && isTamil b then '\n' :: a :: b :: sub1 rest
    else '\n' :: sub1 (a :: '\n' :: b :: rest)
  | c :: rest => c :: sub1 rest
  | [] => []

/-- PHASE 6 second rule, `re.sub(r"\nஉ\n([஀-௿])", "\nஉ" + g1, text)`. -/
def sub2 : List Char → List Char
  | '\n' :: 'உ' :: '\n' :: b :: rest =>
    if isTamil b then '\n' :: 'உ' :: b :: sub2 rest
    else '\n' :: sub2 ('உ' :: '\n' :: b :: rest)
  | c :: rest => c :: sub2 rest
  | [] => []

/-- PHASE 1 of `clean`: font-encoding garbled character remaps
(lines 53-107), in source order. -/
def phase1 (t : List Char) : List Char :=
  replCharStr (Char.ofNat 0xe5) (cs "யூ") <|
  replCharStr (Char.ofNat 0xaa) (cs "சீ") <|
  replCharStr (Char.ofNat 0xbb) (cs "ஷி") <|
  replCharStr (Char.ofNat 0xa1) (cs "ணீ") <|
  replCharStr (Char.ofNat 0xa5) (cs "ஊ") <|
  plusSpace <| plusTamil <|
  replCharStr (Char.ofNat 0x7d) (cs "ூ") <|
  replCharStr (Char.ofNat 0x7b) (cs "ு") t

/-- PHASE 2 of `clean`: control-character removal (lines 114-123). -/
def phase2 (t : List Char) : List Char :=
  replCharStr (Char.ofNat 0x84) [] <|
  replCharStr (Char.ofNat 0x91) [Char.ofNat 39] <|
  replCharStr (Char.ofNat 0x92) [Char.ofNat 39] <|
  replCharStr (Char.ofNat 0x94) [] t

/-- PHASE 3 of `clean`: quote normalization (lines 130-141). -/
def phase3 (t : List Char) : List Char :=
  replCharStr (Char.ofNat 0x2020) [] <|
  replCharStr (Char.ofNat 0x201e) [] <|
  replCharStr (Char.ofNat 0x201d) [Char.ofNat 34] <|
  replCharStr (Char.ofNat 0x201c) [Char.ofNat 34] <|
  replCharStr (Char.ofNat 0x2019) [Char.ofNat 39] <|
  replCharStr (Char.ofNat 0x2018) [Char.ofNat 39] t

/-- PHASE 4 of `clean`: punctuation repair (lines 148-151). -/
def phase4 (t : List Char) : List Char := subPC (fixDots t)

/-- PHASE 5 of `clean`: per-line trailing-whitespace strip and internal
space collapse (lines 157-175). -/
def phase5 (t : List Char) : List Char := joinNL ((splitNL t).map lineClean)

/-- PHASE 6 of `clean`: join broken single-character lines (lines 185-197). -/
def phase6 (t : List Char) : List Char := sub2 (sub1 t)

/-- The whole `clean` function of `clean_text.py`. -/
def clean (t : List Char) : List Char :=
  phase6 (phase5 (phase4 (phase3 (phase2 (phase1 t)))))

/-- The context-sensitive rows of the remap table: the only remaps of
`clean` guarded by context (lines 60-61) concern the corrupted character
`+`, mapping it to `ூ` both between two Tamil characters and before
whitespace after a Tamil character.  Each row is
(corrupted char, between-Tamil replacement, before-space replacement). -/
def contextRemaps : List (Char × List Char × List Char) := [('+', cs "ூ", cs "ூ")]

/-! ## Model of `clean4.py` (residual-artifact cleanup, module level) -/

/-- The garbled publisher boilerplate marker of `clean4.py` line 26. -/
def garbledHeader : List Char := cs "னுயலய ஐளடயஅiஉ ஆநனயை - Pநசலையமரடயஅ ஊழவெயஉவ : னபinயொ"

/-- Step 1: drop every line containing the garbled header marker. -/
def step1 (t : List Char) : List Char :=
  joinNL ((splitNL t).filter (fun line => !(containsSub garbledHeader line)))

/-- Step 2a: `re.sub(r'ந்h', 'நா', text)`. -/
def sub2a : List Char → List Char
  | 'ந' :: '்' :: 'h' :: rest => 'ந' :: 'ா' :: sub2a rest
  | c :: rest => c :: sub2a rest
  | [] => []

/-- Step 2b: `re.sub(r'க்hள', 'ர்கள', text)`. -/
def sub2b : List Char → List Char
  | 'க' :: '்' :: 'h' :: 'ள' :: rest => 'ர' :: '்' :: 'க' :: 'ள' :: sub2b rest
  | c :: rest => c :: sub2b rest
  | [] => []

/-- The lookahead of step 2c: whitespace, one of `,.'"`, or end of input. -/
def look2c (o : Option Char) : Bool :=
  match o with
  | none => true
  | some c => isWS c || c = ',' || c = '.' || c = Char.ofNat 39 || c = Char.ofNat 34

/-- Step 2c: `re.sub(r'ர்h(?=\s|[,.\'\"]|$)', 'ர்', text)`; when the
lookahead fails the scan advances one character. -/
def sub2c : List Char → List Char
  | 'ர' :: '்' :: 'h' :: rest =>
    if look2c rest.head? then 'ர' :: '்' :: sub2c rest
    else 'ர' :: sub2c ('்' :: 'h' :: rest)
  | c :: rest => c :: sub2c rest
  | [] => []

/-- Context test for the start-of-line anchor `^` under `re.MULTILINE`:
position 0 or a position preceded by a newline. -/
def optBOL (o : Option Char) : Bool :=
  match o with
  | none => true
  | some c => c = '\n'

/-- Scanner for a deletion regex of shape `(?<=P)tgt(?=N)` replaced by
the empty string; as in `subPoint1Aux` the lookarounds inspect original
neighbours. -/
def subPointDelAux (pv : Option Char → Bool) (tgt : Char) (nx : Option Char → Bool) :
    Option Char → List Char → List Char
  | _, [] => []
  | prev, c :: rest =>
    if c = tgt ∧ pv prev = true ∧ nx rest.head? = true then
      subPointDelAux pv tgt nx (some c) rest
    else c :: subPointDelAux pv tgt nx (some c) rest

/-- Top-level entry for `subPointDelAux`. -/
def subPointDel (pv : Option Char → Bool) (tgt : Char) (nx : Option Char → Bool)
    (l : List Char) : List Char :=
  subPointDelAux pv tgt nx none l

/-- Step 2 of `clean4.py` (rules 2a-2g, lines 38-74), in source order. -/
def step2 (t : List Char) : List Char :=
  subPointDel optTamil 'i' (fun _ => true) <|
  subPointDel (fun _ => true) 'n' optTamil <|
  subPointDel optTamil 'N' (fun _ => true) <|
  subPoint1 optBOL 'h' optTamil 'ந' <|
  subPoint1 optWS 'h' optTamil 'ந' <|
  sub2c <| sub2b <| sub2a t

/-- Step 3 of `clean4.py` (lines 79-84): remove all remaining ASCII
Latin letters if any remain. -/
def step3 (t : List Char) : List Char :=
  if t.any isLatin then t.filter (fun c => !(isLatin c)) else t

/-- Step 4 of `clean4.py` (lines 89-94): collapse space runs, strip each
line, and drop blank lines. -/
def step4 (t : List Char) : List Char :=
  joinNL (((splitNL (collapse t)).map stripWS).filter (fun l => !(l.isEmpty)))

/-- The whole module-level pipeline of `clean4.py` (the residual
non-Tamil artifact cleanup stage). -/
def clean4 (t : List Char) : List Char := step4 (step3 (step2 (step1 t)))

/-! ## Model of the segmentation stage (`build_db.py`, `extract_hadith.py`) -/

/-- The entry-marker keyword of the split pattern `(ஹதீஸ்\s*[:.]?\s*\d{1,5})`. -/
def kwHadith : List Char := cs "ஹதீஸ்"

/-- The book-marker keyword of the pattern `பாகம்\s*\d+`. -/
def kwBook : List Char := cs "பாகம்"

/-- The chapter-marker keyword of the pattern `அத்தியாயம்\s*\d+`. -/
def kwChapter : List Char := cs "அத்தியாயம்"

/-- The top-level title keyword of `re.sub(r'ஸஹீஹ.*', '', content)`. -/
def kwSahih : List Char := cs "ஸஹீஹ"

/-- Match of `\s*[:.]?\s*\d{1,5}` at the start of `r0` (the part of the
entry-marker pattern after the keyword), with the greedy semantics of
the Python engine; returns the matched text and the remainder. -/
def markerTail (r0 : List Char) : Option (List Char × List Char) :=
  match (r0.dropWhile isWS) with
  | c :: t =>
    if c = ':' ∨ c = '.' then
      let ds := ((t.dropWhile isWS).takeWhile isPyDigit).take 5
      if ds.isEmpty then none
      else some (r0.takeWhile isWS ++ c :: (t.takeWhile isWS) ++ ds, (t.dropWhile isWS).drop ds.length)
    else
      let ds := ((r0.dropWhile isWS).takeWhile isPyDigit).take 5
      if ds.isEmpty then none
      else some (r0.takeWhile isWS ++ ds, (r0.dropWhile isWS).drop ds.length)
  | [] => none

/-- Match of the whole entry-marker pattern `ஹதீஸ்\s*[:.]?\s*\d{1,5}`
at the start of `l`. -/
def markerAt (l : List Char) : Option (List Char × List Char) :=
  if kwHadith.isPrefixOf l then
    match markerTail (l.drop 5) with
    | some (m, rem) => some (kwHadith ++ m, rem)
    | none => none
  else none

/-- `re.split` driver: scan the buffer left to right for entry-marker
matches, emitting the text spans between them and the (captured) marker
spans, ending with a final text span.  The fuel argument only bounds the
number of scan steps; each step consumes at least one character, so fuel
equal to the buffer length (as supplied by `splitMarkers`) never runs
out. -/
def splitMarkersF : Nat → List Char → List Char → List (List Char)
  | 0, acc, l => [acc.reverse ++ l]
  | _ + 1, acc, [] => [acc.reverse]
  | fuel + 1, acc, c :: rest =>
    match markerAt (c :: rest) with
    | some (m, rem) => acc.reverse :: m :: splitMarkersF fuel [] rem
    | none => splitMarkersF fuel (c :: acc) rest

/-- `parts = re.split(r'(ஹதீஸ்\s*[:.]?\s*\d{1,5})', text)`. -/
def splitMarkers (t : List Char) : List (List Char) := splitMarkersF t.length [] t

/-- Match of `kw ++ \s* ++ \d+` at the start of `l`, returning the
matched text (used for the book/chapter `re.search` with `.group()`). -/
def patAt (kw : List Char) (l : List Char) : Option (List Char) :=
  if kw.isPrefixOf l then
    let r0 := l.drop kw.length
    let ds := (r0.dropWhile isWS).takeWhile isPyDigit
    if ds.isEmpty then none
    else some (kw ++ r0.takeWhile isWS ++ ds)
  else none

/-- `re.search(kw + r'\s*\d+', block)` followed by `.group()`: the text
of the leftmost match, if any. -/
def patSearch (kw : List Char) : List Char → Option (List Char)
  | [] => none
  | c :: rest =>
    match patAt kw (c :: rest) with
    | some m => some m
    | none => patSearch kw rest

/-- `re.findall(r'\d+', block)` first element: the first maximal digit
run, or `[]` when the block holds no digit. -/
def firstDigits : List Char → List Char
  | [] => []
  | c :: rest => if isPyDigit c then c :: rest.takeWhile isPyDigit else firstDigits rest

/-- `int(...)` on a digit string. -/
def digitsToNat (l : List Char) : Nat := l.foldl (fun n c => 10 * n + (c.toNat - 48)) 0

/-- A row of the `hadiths` table as produced by `build_db.py` (the
`audio_path` column is always the empty string and is omitted). -/
structure Entry where
  num : List Char
  book : List Char
  chapter : List Char
  content : List Char
deriving DecidableEq, Repr

/-- `build_db.py` line 35-36: the current book label is overwritten by
the text of a book-marker match, if the block holds one. -/
def updBook (block book : List Char) : List Char := (patSearch kwBook block).getD book

/-- `build_db.py` line 38-39: likewise for the current chapter label. -/
def updChap (block ch : List Char) : List Char := (patSearch kwChapter block).getD ch

/-- The span-processing loop of `build_db.py` (lines 28-52): walk the
split parts carrying the current book/chapter labels; for a block that
`re.match`es the entry keyword, take the first digit run
(`findall(...)[0]` raises on a block without digits) and the following
part (`parts[i+1]` raises when the block is last); keep the entry when
the stripped body has at least 30 characters. -/
def segLoopE : List (List Char) → List Char → List Char → Except String (List Entry)
  | [], _, _ => .ok []
  | block :: rest, book, ch =>
    if kwHadith.isPrefixOf block then
      match firstDigits block with
      | [] => .error "IndexError: findall"
      | d :: ds =>
        match rest with
        | [] => .error "IndexError: parts"
        | next :: _ =>
          if (stripWS next).length < 30 then
            segLoopE rest (updBook block book) (updChap block ch)
          else
            Except.map
              (fun es => ⟨d :: ds, updBook block book, updChap block ch, stripWS next⟩ :: es)
              (segLoopE rest (updBook block book) (updChap block ch))
    else segLoopE rest (updBook block book) (updChap block ch)

/-- The whole segmentation-and-persistence stage of `build_db.py`:
split the buffer and run the loop from empty book/chapter labels. -/
def buildDB (t : List Char) : Except String (List Entry) := segLoopE (splitMarkers t) [] []

/-- `re.sub(r'ஸஹீஹ.*', '', content)` of `extract_hadith.py` line 21:
every occurrence of the title keyword is deleted together with the rest
of its line (`.` does not cross a newline).  Fuel bounds the scan steps;
each step consumes at least one character, so fuel equal to the input
length (as supplied by `subSahihEOL`) never runs out. -/
def subSahihF : Nat → List Char → List Char
  | 0, l => l
  | _ + 1, [] => []
  | fuel + 1, c :: rest =>
    if kwSahih.isPrefixOf (c :: rest) then
      subSahihF fuel (((c :: rest).drop 4).dropWhile (fun d => !(d = '\n')))
    else c :: subSahihF fuel rest

/-- Top-level entry for `subSahihF`. -/
def subSahihEOL (l : List Char) : List Char := subSahihF l.length l

/-- `re.sub(r'பாகம்\s*\d+.*', '', content)` of `extract_hadith.py`
line 22: a book-marker match (whose `\s*` may cross newlines) is
deleted together with the rest of the line holding its digits.  Fuel as
in `subSahihF`. -/
def subBookF : Nat → List Char → List Char
  | 0, l => l
  | _ + 1, [] => []
  | fuel + 1, c :: rest =>
    if kwBook.isPrefixOf (c :: rest) ∧
        ((((c :: rest).drop 5).dropWhile isWS).head?.any isPyDigit) = true then
      subBookF fuel (((((c :: rest).drop 5).dropWhile isWS).dropWhile isPyDigit).dropWhile
        (fun d => !(d = '\n')))
    else c :: subBookF fuel rest

/-- Top-level entry for `subBookF`. -/
def subBookToEOL (l : List Char) : List Char := subBookF l.length l

/-- The body post-processing of `extract_hadith.py` lines 21-24: strip
header garbage to end of line, then trim. -/
def stripContent (ct : List Char) : List Char := stripWS (subBookToEOL (subSahihEOL ct))

/-- The loop of `extract_hadith.py` (lines 10-30): iterate the odd
positions of the split parts (so the caller passes `parts.drop 1`); a
trailing unpaired part raises (`parts[i+1]`); a number part without a
digit run is skipped; the entry is kept when the processed body has at
least 40 characters. -/
def extractLoop : List (List Char) → Except String (List (Nat × List Char))
  | [] => .ok []
  | [_] => .error "IndexError: parts"
  | np :: ct :: rest =>
    match firstDigits np with
    | [] => extractLoop rest
    | d :: ds =>
      if (stripContent ct).length < 40 then extractLoop rest
      else
        Except.map (fun es => (digitsToNat (d :: ds), stripContent ct) :: es) (extractLoop rest)

/-- The whole standalone segmentation stage of `extract_hadith.py`. -/
def extractHadiths (t : List Char) : Except String (List (Nat × List Char)) :=
  extractLoop ((splitMarkers t).drop 1)

/-! ## Predicates used to state the claims -/

/-- Does the `\n([஀-௿])\n([஀-௿])` orphan-line pattern match at the head
of the buffer? -/
def orphanHead (l : List Char) : Bool :=
  match l with
  | '\n' :: a :: '\n' :: b :: _ => isTamil a && isTamil b
  | _ => false

/-- Does the orphan-line pattern match anywhere in the buffer? -/
def hasOrphanPat : List Char → Bool
  | [] => false
  | c :: rest => orphanHead (c :: rest) || hasOrphanPat rest

/-- The corrupted source characters of the remap, control-character and
quote rules of `clean` (PHASES 1-3), including the context-remapped `+`. -/
def badChars : List Char :=
  [Char.ofNat 0x7b, Char.ofNat 0x7d, '+', Char.ofNat 0xa5, Char.ofNat 0xa1,
   Char.ofNat 0xbb, Char.ofNat 0xaa, Char.ofNat 0xe5, Char.ofNat 0x94,
   Char.ofNat 0x92, Char.ofNat 0x91, Char.ofNat 0x84, Char.ofNat 0x2018,
   Char.ofNat 0x2019, Char.ofNat 0x201c, Char.ofNat 0x201d, Char.ofNat 0x201e,
   Char.ofNat 0x2020]

/-- A buffer with no corrupted token left for `clean` to match: none of
the remap source characters, no double period, no period-comma, on every
line no trailing whitespace and no double space, and no orphan-line
pattern. -/
def pristine (l : List Char) : Bool :=
  l.all (fun c => !(badChars.contains c)) &&
  !(containsSub ['.', '.'] l) && !(containsSub ['.', ','] l) &&
  (splitNL l).all (fun line => (rstripL line == line) && !(containsSub [' ', ' '] line)) &&
  !(hasOrphanPat l)

/-! ## Theorems -/

set_option maxRecDepth 100000

/-- C6 (code bug): the code's own comment says a double period that is
NOT part of a triple-period ellipsis collapses to a single period, but
`re.sub(r"\.\.(?!\.)", ".", text)` matches the second and third periods
of `...` (the lookahead only guards the right side), so the ellipsis
itself is rewritten to `..`.  This theorem evaluates the embedded code
at the failing input. -/
theorem C6_code_eval : clean (cs "...") = cs ".." ∧ fixDots (cs "...") = cs ".." :=
  ⟨by decide, by decide⟩

/-- C1 (counterexample): the repair engine is not idempotent.  On the
buffer `.,.` the first run rewrites the period-comma to a period,
creating a fresh double period, which only the second run collapses. -/
theorem C1_counterexample : clean (clean (cs ".,.")) ≠ clean (cs ".,.") := by decide

/-- C5 (counterexample): a buffer whose single span starts with the
entry keyword but holds no digit makes `re.findall(r'\d+', block)[0]`
raise an IndexError, so the span-processing loop can fail from text
content alone. -/
theorem C5_counterexample : buildDB (cs "ஹதீஸ் அழகு") = .error "IndexError: findall" := rfl

/-- C8 (counterexample): the orphan-join rules require a preceding line
break, so a lone Tamil-character line at the very start of the buffer is
not joined even though the following line starts with a Tamil character. -/
theorem C8_counterexample :
    clean (cs "உ\nஉள்ளன") = cs "உ\nஉள்ளன" ∧ cs "உ\nஉள்ளன" ≠ cs "உஉள்ளன" :=
  ⟨by decide, by decide⟩

/-- C7 (counterexample): the remap table has exactly one
context-sensitive corrupted character, `+`, and its between-Tamil and
before-whitespace mappings are both `ூ`, so no corrupted character maps
differently in the two contexts; evaluating PHASE 1 in both contexts
produces the same replacement. -/
theorem C7_counterexample :
    (contextRemaps.all fun r => r.2.1 == r.2.2) = true ∧
    phase1 (cs "அ+அ") = cs "அூஅ" ∧ phase1 (cs "அ+ ") = cs "அூ " :=
  ⟨rfl, by decide, by decide⟩

/-- C10 (counterexample): the persistence segmenter stores the body
verbatim, so an accepted entry whose body holds a title-keyword line is
NOT truncated there: the stored text still contains the keyword and the
following line. -/
theorem C10_counterexample :
    buildDB (cs "ஹதீஸ் 1 அவர் நல்லதைச் சொன்னார் என அறிவிக்கப்பட்டது\nஸஹீஹ் தலைப்பு வரி\nமீதம் உள்ள உடல் வரி") =
      .ok [⟨cs "1", [], [],
        cs "அவர் நல்லதைச் சொன்னார் என அறிவிக்கப்பட்டது\nஸஹீஹ் தலைப்பு வரி\nமீதம் உள்ள உடல் வரி"⟩] ∧
    containsSub kwSahih
      (cs "அவர் நல்லதைச் சொன்னார் என அறிவிக்கப்பட்டது\nஸஹீஹ் தலைப்பு வரி\nமீதம் உள்ள உடல் வரி") = true :=
  ⟨rfl, by decide⟩

/-- C4: during segmentation the current book and chapter labels start as
empty strings (`buildDB` runs the loop from `[]`, `[]`) and are
overwritten exactly by the most recent block matching the book/chapter
pattern; in the scenario
`[book marker][chapter marker][entry 1][body1][entry 2][body2]` both
entries carry the same book and chapter labels, and an entry produced
before any book marker carries the empty-string labels. -/
theorem C4_carry_forward :
    (∀ block book ch, updBook block book = (patSearch kwBook block).getD book ∧
        updChap block ch = (patSearch kwChapter block).getD ch) ∧
    (∀ t, buildDB t = segLoopE (splitMarkers t) [] []) ∧
    buildDB (cs "பாகம் 1 அத்தியாயம் 3 ஹதீஸ் 1 இது ஒரு சோதனை வாக்கியம் முப்பதுக்கும் மேற்பட்ட எழுத்துகள் ஹதீஸ் 2 மற்றொரு சோதனை வாக்கியம் இதுவும் முப்பது எழுத்துகளுக்கு மேல்") =
      .ok [⟨cs "1", cs "பாகம் 1", cs "அத்தியாயம் 3", cs "இது ஒரு சோதனை வாக்கியம் முப்பதுக்கும் மேற்பட்ட எழுத்துகள்"⟩,
           ⟨cs "2", cs "பாகம் 1", cs "அத்தியாயம் 3", cs "மற்றொரு சோதனை வாக்கியம் இதுவும் முப்பது எழுத்துகளுக்கு மேல்"⟩] ∧
    buildDB (cs "ஹதீஸ் 7 இது ஒரு சோதனை வாக்கியம் முப்பதுக்கும் மேற்பட்ட எழுத்துகள்") =
      .ok [⟨cs "7", [], [], cs "இது ஒரு சோதனை வாக்கியம் முப்பதுக்கும் மேற்பட்ட எழுத்துகள்"⟩] :=
  ⟨fun _ _ _ => ⟨rfl, rfl⟩, fun _ => rfl, rfl, rfl⟩

/-- Step lemma: a block that does not start with the entry keyword only
updates the labels. -/
theorem seg_skip (block : List Char) (rest : List (List Char)) (book ch : List Char)
    (h : kwHadith.isPrefixOf block = false) :
    segLoopE (block :: rest) book ch =
      segLoopE rest (updBook block book) (updChap block ch) := by
  simp only [segLoopE, h, Bool.false_eq_true, if_false]

/-- Step lemma: a keyword block whose trimmed body is below the
threshold contributes no entry. -/
theorem seg_drop (block next : List Char) (rest : List (List Char)) (book ch : List Char)
    (hkw : kwHadith.isPrefixOf block = true) (d : Char) (ds : List Char)
    (hd : firstDigits block = d :: ds) (hlen : (stripWS next).length < 30) :
    segLoopE (block :: next :: rest) book ch =
      segLoopE (next :: rest) (updBook block book) (updChap block ch) := by
  simp only [segLoopE, hkw, if_true, hd]
  rw [if_pos hlen]

/-- Step lemma: a keyword block with a long enough trimmed body
contributes the entry built from the current labels. -/
theorem seg_keep (block next : List Char) (rest : List (List Char)) (book ch : List Char)
    (hkw : kwHadith.isPrefixOf block = true) (d : Char) (ds : List Char)
    (hd : firstDigits block = d :: ds) (hlen : ¬((stripWS next).length < 30)) :
    segLoopE (block :: next :: rest) book ch =
      Except.map
        (fun es => ⟨d :: ds, updBook block book, updChap block ch, stripWS next⟩ :: es)
        (segLoopE (next :: rest) (updBook block book) (updChap block ch)) := by
  simp only [segLoopE, hkw, if_true, hd]
  rw [if_neg hlen]

/-- C3: the minimum-length filter of both segmenters.  For a block that
matches the entry keyword and holds a digit run, the persistence loop
(`build_db.py`, threshold 30) drops the candidate entry when the trimmed
body is shorter than 30 and emits it when the body has 31 or more
characters; the standalone loop (`extract_hadith.py`, threshold 40)
drops below 40 and emits at 41 or more. -/
theorem C3_min_length :
    (∀ block next rest book ch, kwHadith.isPrefixOf block = true →
      ∀ d ds, firstDigits block = d :: ds →
      ((stripWS next).length < 30 →
        segLoopE (block :: next :: rest) book ch =
          segLoopE (next :: rest) (updBook block book) (updChap block ch)) ∧
      (31 ≤ (stripWS next).length →
        segLoopE (block :: next :: rest) book ch =
          Except.map
            (fun es => ⟨d :: ds, updBook block book, updChap block ch, stripWS next⟩ :: es)
            (segLoopE (next :: rest) (updBook block book) (updChap block ch)))) ∧
    (∀ np ct rest, ∀ d ds, firstDigits np = d :: ds →
      ((stripContent ct).length < 40 → extractLoop (np :: ct :: rest) = extractLoop rest) ∧
      (41 ≤ (stripContent ct).length →
        extractLoop (np :: ct :: rest) =
          Except.map (fun es => (digitsToNat (d :: ds), stripContent ct) :: es)
            (extractLoop rest))) := by
  constructor
  · intro block next rest book ch hkw d ds hd
    constructor
    · intro hlen
      exact seg_drop block next rest book ch hkw d ds hd hlen
    · intro hlen
      exact seg_keep block next rest book ch hkw d ds hd (by omega)
  · intro np ct rest d ds hd
    constructor
    · intro hlen
      simp only [extractLoop, hd]
      rw [if_pos hlen]
    · intro hlen
      simp only [extractLoop, hd]
      rw [if_neg (by omega)]

/-- Witness for `C3_min_length` at concrete spans: a 7-character body is
dropped by the persistence loop and a 46-character body is emitted by
the standalone loop. -/
theorem C3_witness :
    segLoopE [cs "ஹதீஸ் 4", cs "சிறியது"] [] [] =
      segLoopE [cs "சிறியது"] (updBook (cs "ஹதீஸ் 4") []) (updChap (cs "ஹதீஸ் 4") []) ∧
    extractLoop [cs "ஹதீஸ் 9", cs "நாற்பது எழுத்துகளுக்கு மேலான உடல் உரை இது சரிதான் மிக நீளமானது"] =
      Except.map
        (fun es => (digitsToNat ('9' :: []),
          stripContent (cs "நாற்பது எழுத்துகளுக்கு மேலான உடல் உரை இது சரிதான் மிக நீளமானது")) :: es)
        (extractLoop []) :=
  ⟨(C3_min_length.1 (cs "ஹதீஸ் 4") (cs "சிறியது") [] [] [] (by decide) '4' []
      (by decide)).1 (by decide),
   (C3_min_length.2 (cs "ஹதீஸ் 9")
      (cs "நாற்பது எழுத்துகளுக்கு மேலான உடல் உரை இது சரிதான் மிக நீளமானது") [] '9' []
      (by decide)).2 (by decide)⟩

/-- C5 (amended): the span-processing loop of `build_db.py` completes
without raising whenever every span that starts with the entry keyword
holds a digit and the final span does not start with the keyword; the
loop is a pure function of the spans, hence deterministic.  (The
unamended claim fails: see the counterexample.) -/
theorem C5_amended (parts : List (List Char)) (book ch : List Char)
    (H1 : ∀ b ∈ parts, kwHadith.isPrefixOf b = true → firstDigits b ≠ [])
    (H2 : ∀ b, parts.getLast? = some b → kwHadith.isPrefixOf b = false) :
    ∃ es, segLoopE parts book ch = .ok es := by
  induction parts generalizing book ch with
  | nil => exact ⟨[], rfl⟩
  | cons block rest ih =>
    by_cases hkw : kwHadith.isPrefixOf block = true
    · cases rest with
      | nil =>
        have hlast := H2 block (by simp)
        rw [hkw] at hlast
        simp at hlast
      | cons next rest2 =>
        obtain ⟨d, ds, hd⟩ : ∃ d ds, firstDigits block = d :: ds := by
          have h1 := H1 block (by simp) hkw
          cases hfd : firstDigits block with
          | nil => exact absurd hfd h1
          | cons d ds => exact ⟨d, ds, rfl⟩
        have H1' : ∀ b ∈ next :: rest2, kwHadith.isPrefixOf b = true → firstDigits b ≠ [] :=
          fun b hb => H1 b (List.mem_cons_of_mem _ hb)
        have H2' : ∀ b, (next :: rest2).getLast? = some b → kwHadith.isPrefixOf b = false := by
          intro b hb
          exact H2 b (by rw [List.getLast?_cons_cons]; exact hb)
        obtain ⟨es, hes⟩ := ih (updBook block book) (updChap block ch) H1' H2'
        by_cases hlen : (stripWS next).length < 30
        · refine ⟨es, ?_⟩
          rw [seg_drop block next rest2 book ch hkw d ds hd hlen, hes]
        · refine ⟨⟨d :: ds, updBook block book, updChap block ch, stripWS next⟩ :: es, ?_⟩
          rw [seg_keep block next rest2 book ch hkw d ds hd hlen, hes]
          rfl
    · rw [Bool.not_eq_true] at hkw
      cases rest with
      | nil =>
        refine ⟨[], ?_⟩
        rw [seg_skip block [] book ch hkw]
        rfl
      | cons next rest2 =>
        have H1' : ∀ b ∈ next :: rest2, kwHadith.isPrefixOf b = true → firstDigits b ≠ [] :=
          fun b hb => H1 b (List.mem_cons_of_mem _ hb)
        have H2' : ∀ b, (next :: rest2).getLast? = some b → kwHadith.isPrefixOf b = false := by
          intro b hb
          exact H2 b (by rw [List.getLast?_cons_cons]; exact hb)
        obtain ⟨es, hes⟩ := ih (updBook block book) (updChap block ch) H1' H2'
        refine ⟨es, ?_⟩
        rw [seg_skip block (next :: rest2) book ch hkw]
        exact hes

/-- Witness for `C5_amended`: a concrete three-span run ends in `.ok`. -/
theorem C5_witness :
    ∃ es, segLoopE [cs "அறிமுகம் வரி", cs "ஹதீஸ் 3", cs "உடல் உரை"] [] [] = .ok es :=
  C5_amended [cs "அறிமுகம் வரி", cs "ஹதீஸ் 3", cs "உடல் உரை"] [] [] (by decide) (by decide)

/-- C8 (amended): a lone Tamil-character line that is preceded by a line
break and followed by a line starting with a Tamil character is joined
with that line (the break removed); when the following line does not
start with a Tamil character the orphan is left unjoined; the concrete
four-line buffer joins only its orphan and leaves line1/line4 intact.
(The unamended claim fails for an orphan at the very start of the
buffer: see the counterexample.) -/
theorem C8_amended :
    (∀ (a b : Char) (rest : List Char), isTamil a = true → isTamil b = true →
      sub1 ('\n' :: a :: '\n' :: b :: rest) = '\n' :: a :: b :: sub1 rest) ∧
    (∀ (a b : Char) (rest : List Char), isTamil a = true → isTamil b = false →
      sub1 ('\n' :: a :: '\n' :: b :: rest) = '\n' :: sub1 (a :: '\n' :: b :: rest)) ∧
    clean (cs "line1\nஉ\nஉள்ளன\nline4") = cs "line1\nஉஉள்ளன\nline4" ∧
    clean (cs "line1\nஉ\nabc\nline4") = cs "line1\nஉ\nabc\nline4" := by
  refine ⟨?_, ?_, by decide, by decide⟩
  · intro a b rest ha hb
    simp [sub1, ha, hb]
  · intro a b rest ha hb
    simp [sub1, ha, hb]

/-- Witness for `C8_amended` at concrete characters. -/
theorem C8_witness :
    sub1 ('\n' :: 'உ' :: '\n' :: 'உ' :: []) = '\n' :: 'உ' :: 'உ' :: sub1 [] ∧
    sub1 ('\n' :: 'உ' :: '\n' :: 'a' :: []) = '\n' :: sub1 ('உ' :: '\n' :: 'a' :: []) :=
  ⟨C8_amended.1 'உ' 'உ' [] (by decide) (by decide),
   C8_amended.2.1 'உ' 'a' [] (by decide) (by decide)⟩

/-- Pointwise description of the context-sensitive substitution scanner:
position `i` of the output holds the replacement exactly when the
original character at `i` is the target and the original neighbours
satisfy the context tests. -/
theorem subPoint1Aux_getElem (pv : Option Char → Bool) (tgt : Char) (nx : Option Char → Bool)
    (rep : Char) :
    ∀ (l : List Char) (prev : Option Char) (i : Nat),
    (subPoint1Aux pv tgt nx rep prev l)[i]? =
      (l[i]?).map (fun c =>
        if c = tgt ∧ pv (if i = 0 then prev else l[i - 1]?) = true ∧ nx (l[i + 1]?) = true
        then rep else c) := by
  intro l
  induction l with
  | nil => intro prev i; simp [subPoint1Aux]
  | cons c rest ih =>
    intro prev i
    cases i with
    | zero =>
      simp [subPoint1Aux, List.head?_eq_getElem?]
    | succ j =>
      simp only [subPoint1Aux, List.getElem?_cons_succ]
      rw [ih (some c) j]
      have hprev : (if j = 0 then some c else rest[j - 1]?) = (c :: rest)[j]? := by
        cases j with
        | zero => simp
        | succ k => simp
      rw [hprev]
      have hnext : rest[j + 1]? = (c :: rest)[j + 1 + 1]? := by simp
      rw [hnext]
      simp

/-- Whitespace characters are not in the Tamil block. -/
theorem ws_not_tamil (b : Char) (h : isWS b = true) : isTamil b = false := by
  unfold isWS at h
  simp only [Bool.or_eq_true, decide_eq_true_eq] at h
  rcases h with ((((h | h) | h) | h) | h) | h <;> subst h <;> decide

/-- C7 (amended): the remap table's only context-sensitive corrupted
character is `+`, and its between-Tamil and before-whitespace mappings
are the same string `ூ`; in each context every occurrence of `+`
resolves to `ூ` under the composed PHASE 1 context rules.  (The
unamended claim, that the two mappings differ for some character, fails:
see the counterexample.) -/
theorem C7_amended :
    contextRemaps = [('+', cs "ூ", cs "ூ")] ∧
    (∀ (x : List Char) (i : Nat) (a b : Char), x[i]? = some '+' → 1 ≤ i →
      x[i - 1]? = some a → isTamil a = true → x[i + 1]? = some b → isTamil b = true →
      (plusSpace (plusTamil x))[i]? = some 'ூ') ∧
    (∀ (x : List Char) (i : Nat) (a b : Char), x[i]? = some '+' → 1 ≤ i →
      x[i - 1]? = some a → isTamil a = true → x[i + 1]? = some b → isWS b = true →
      (plusSpace (plusTamil x))[i]? = some 'ூ') := by
  refine ⟨rfl, ?_, ?_⟩
  · intro x i a b hx hi ha hta hb htb
    have hne0 : ¬(i = 0) := by omega
    have hy : (plusTamil x)[i]? = some 'ூ' := by
      rw [plusTamil, subPoint1, subPoint1Aux_getElem, hx]
      simp only [Option.map_some']
      rw [if_neg hne0, ha, hb]
      simp [optTamil, hta, htb]
    rw [plusSpace, subPoint1, subPoint1Aux_getElem, hy]
    simp only [Option.map_some']
    split <;> rfl
  · intro x i a b hx hi ha hta hb htb
    have hne0 : ¬(i = 0) := by omega
    have hne_b : isTamil b = false := ws_not_tamil b htb
    have ha' : ¬(a = '+') := fun h => by rw [h] at hta; exact absurd hta (by decide)
    have hb' : ¬(b = '+') := fun h => by rw [h] at htb; exact absurd htb (by decide)
    have hy : (plusTamil x)[i]? = some '+' := by
      rw [plusTamil, subPoint1, subPoint1Aux_getElem, hx, hb]
      simp [optTamil, hne_b]
    have hyl : (plusTamil x)[i - 1]? = some a := by
      rw [plusTamil, subPoint1, subPoint1Aux_getElem, ha]
      simp [ha']
    have hyr : (plusTamil x)[i + 1]? = some b := by
      rw [plusTamil, subPoint1, subPoint1Aux_getElem, hb]
      simp [hb']
    rw [plusSpace, subPoint1, subPoint1Aux_getElem, hy]
    simp only [Option.map_some']
    rw [if_neg hne0, hyl, hyr]
    simp [optTamil, optWS, hta, htb]

/-- Witness for `C7_amended`: both contexts at concrete buffers resolve
the `+` at position 1 to `ூ`. -/
theorem C7_witness :
    (plusSpace (plusTamil (cs "அ+அ")))[1]? = some 'ூ' ∧
    (plusSpace (plusTamil (cs "அ+ ")))[1]? = some 'ூ' :=
  ⟨C7_amended.2.1 (cs "அ+அ") 1 'அ' 'அ' (by decide) (by decide) (by decide) (by decide)
     (by decide) (by decide),
   C7_amended.2.2 (cs "அ+ ") 1 'அ' ' ' (by decide) (by decide) (by decide) (by decide)
     (by decide) (by decide)⟩

/-- Membership is preserved backwards through `dropWhile`. -/
theorem mem_dropWhile {c : Char} {p : Char → Bool} :
    ∀ {l : List Char}, c ∈ l.dropWhile p → c ∈ l := by
  intro l
  induction l with
  | nil => simp [List.dropWhile]
  | cons d rest ih =>
    intro hm
    rw [List.dropWhile_cons] at hm
    by_cases h : p d = true
    · rw [if_pos h] at hm
      exact List.mem_cons_of_mem _ (ih hm)
    · rw [if_neg h] at hm
      exact hm

/-- Membership is preserved backwards through `rstripL`. -/
theorem mem_rstripL {c : Char} {l : List Char} (h : c ∈ rstripL l) : c ∈ l := by
  unfold rstripL at h
  rw [List.mem_reverse] at h
  exact List.mem_reverse.1 (mem_dropWhile h)

/-- Membership is preserved backwards through `stripWS`. -/
theorem mem_stripWS {c : Char} {l : List Char} (h : c ∈ stripWS l) : c ∈ l :=
  mem_dropWhile (mem_rstripL h)

/-- Membership is preserved backwards through `collapse`. -/
theorem mem_collapse {c : Char} : ∀ {l : List Char}, c ∈ collapse l → c ∈ l := by
  intro l
  induction l using collapse.induct with
  | case1 rest ih =>
    intro hm
    rw [collapse.eq_1] at hm
    have := ih hm
    rcases List.mem_cons.1 this with h | h
    · exact h ▸ List.mem_cons_self _ _
    · exact List.mem_cons_of_mem _ (List.mem_cons_of_mem _ h)
  | case2 d rest hne ih =>
    intro hm
    rw [collapse.eq_2 d rest hne] at hm
    rcases List.mem_cons.1 hm with h | h
    · exact h ▸ List.mem_cons_self _ _
    · exact List.mem_cons_of_mem _ (ih h)
  | case3 => intro hm; rw [collapse.eq_3] at hm; exact hm

/-- A character that is not a space survives `collapse`. -/
theorem mem_collapse_keep {c : Char} (hc : ¬(c = ' ')) :
    ∀ {l : List Char}, c ∈ l → c ∈ collapse l := by
  intro l
  induction l using collapse.induct with
  | case1 rest ih =>
    intro hm
    rw [collapse.eq_1]
    apply ih
    rcases List.mem_cons.1 hm with h | h
    · exact absurd h hc
    · exact h
  | case2 d rest hne ih =>
    intro hm
    rw [collapse.eq_2 d rest hne]
    rcases List.mem_cons.1 hm with h | h
    · exact h ▸ List.mem_cons_self _ _
    · exact List.mem_cons_of_mem _ (ih h)
  | case3 => intro hm; exact hm

/-- `splitNL` never returns the empty list of lines. -/
theorem splitNL_ne_nil (l : List Char) : splitNL l ≠ [] := by
  induction l with
  | nil => simp [splitNL]
  | cons c rest ih =>
    simp only [splitNL]
    split
    · simp
    · cases h : splitNL rest with
      | nil => exact absurd h ih
      | cons s ss => exact List.cons_ne_nil _ _

/-- Every character of a line of `splitNL l` is a character of `l`. -/
theorem splitNL_mem : ∀ (l q : List Char), q ∈ splitNL l → ∀ c ∈ q, c ∈ l := by
  intro l
  induction l with
  | nil =>
    intro q hq c hc
    simp only [splitNL, List.mem_singleton] at hq
    subst hq
    simp at hc
  | cons d rest ih =>
    intro q hq c hc
    simp only [splitNL] at hq
    by_cases hd : d = '\n'
    · rw [if_pos hd] at hq
      rcases List.mem_cons.1 hq with h | h
      · subst h; simp at hc
      · exact List.mem_cons_of_mem _ (ih q h c hc)
    · rw [if_neg hd] at hq
      cases hs : splitNL rest with
      | nil => exact absurd hs (splitNL_ne_nil rest)
      | cons s ss =>
        rw [hs] at hq
        rcases List.mem_cons.1 hq with h | h
        · subst h
          rcases List.mem_cons.1 hc with h2 | h2
          · exact h2 ▸ List.mem_cons_self _ _
          · exact List.mem_cons_of_mem _
              (ih s (by rw [hs]; exact List.mem_cons_self _ _) c h2)
        · exact List.mem_cons_of_mem _ (ih q (by rw [hs]; exact List.mem_cons_of_mem _ h) c hc)

/-- Lines produced by `splitNL` contain no newline. -/
theorem splitNL_no_nl : ∀ (l q : List Char), q ∈ splitNL l → '\n' ∉ q := by
  intro l
  induction l with
  | nil =>
    intro q hq
    simp only [splitNL, List.mem_singleton] at hq
    subst hq
    simp
  | cons d rest ih =>
    intro q hq
    simp only [splitNL] at hq
    by_cases hd : d = '\n'
    · rw [if_pos hd] at hq
      rcases List.mem_cons.1 hq with h | h
      · subst h; simp
      · exact ih q h
    · rw [if_neg hd] at hq
      cases hs : splitNL rest with
      | nil => exact absurd hs (splitNL_ne_nil rest)
      | cons s ss =>
        rw [hs] at hq
        rcases List.mem_cons.1 hq with h | h
        · subst h
          intro hmem
          rcases List.mem_cons.1 hmem with h2 | h2
          · exact hd h2.symm
          · exact ih s (by rw [hs]; exact List.mem_cons_self _ _) h2
        · exact ih q (by rw [hs]; exact List.mem_cons_of_mem _ h)

/-- Every character of `joinNL ps` is a newline or a character of some
line of `ps`. -/
theorem joinNL_mem : ∀ (ps : List (List Char)) (c : Char),
    c ∈ joinNL ps → c = '\n' ∨ ∃ q ∈ ps, c ∈ q := by
  intro ps
  induction ps with
  | nil => intro c hc; simp [joinNL] at hc
  | cons s ss ih =>
    intro c hc
    cases ss with
    | nil => exact Or.inr ⟨s, List.mem_cons_self _ _, by simpa [joinNL] using hc⟩
    | cons s2 ss2 =>
      simp only [joinNL] at hc
      rcases List.mem_append.1 hc with h | h
      · exact Or.inr ⟨s, List.mem_cons_self _ _, h⟩
      · rcases List.mem_cons.1 h with h2 | h2
        · exact Or.inl h2
        · rcases ih c h2 with h3 | ⟨q, hq, hcq⟩
          · exact Or.inl h3
          · exact Or.inr ⟨q, List.mem_cons_of_mem _ hq, hcq⟩

/-- C2: for every input buffer, the output of the residual-artifact
cleanup stage (`clean4.py`) contains no ASCII Latin letter: step 3
removes every remaining Latin letter and step 4 only drops characters
or inserts newlines. -/
theorem C2_no_latin (t : List Char) (c : Char) (hc : c ∈ clean4 t) : isLatin c = false := by
  have hz : ∀ d ∈ step3 (step2 (step1 t)), isLatin d = false := by
    intro d hd
    unfold step3 at hd
    by_cases hany : (step2 (step1 t)).any isLatin = true
    · rw [if_pos hany] at hd
      have := List.mem_filter.1 hd
      simpa using this.2
    · rw [if_neg hany] at hd
      rw [Bool.not_eq_true] at hany
      have := List.any_eq_false.1 hany d hd
      simpa using this
  unfold clean4 step4 at hc
  rcases joinNL_mem _ c hc with h | ⟨q, hq, hcq⟩
  · subst h; decide
  · have hq2 := (List.mem_filter.1 hq).1
    rcases List.mem_map.1 hq2 with ⟨q0, hq0, rfl⟩
    have h1 : c ∈ q0 := mem_stripWS hcq
    have h2 : c ∈ collapse (step3 (step2 (step1 t))) :=
      splitNL_mem _ q0 hq0 c h1
    exact hz c (mem_collapse h2)

/-- Witness for `C2_no_latin`: the Tamil letter surviving a concrete
run is not a Latin letter. -/
theorem C2_witness : isLatin 'அ' = false :=
  C2_no_latin (cs "அab") 'அ' (by decide)


/-- The first character surviving `dropWhile` fails the predicate. -/
theorem dropWhile_head_false {p : Char → Bool} (l : List Char) :
    ∀ {c : Char} {t : List Char}, l.dropWhile p = c :: t → p c = false := by
  induction l with
  | nil => intro c t h; simp [List.dropWhile] at h
  | cons d rest ih =>
    intro c t h
    rw [List.dropWhile_cons] at h
    by_cases hd : p d = true
    · rw [if_pos hd] at h
      exact ih h
    · rw [if_neg hd] at h
      injection h with h1 h2
      subst h1
      exact Bool.not_eq_true _ ▸ hd

/-- A non-empty rstripped line contains a non-whitespace character. -/
theorem rstripL_has_nonws (q : List Char) (h : rstripL q ≠ []) :
    ∃ c ∈ rstripL q, isWS c = false := by
  unfold rstripL at h ⊢
  cases hs : q.reverse.dropWhile isWS with
  | nil => rw [hs] at h; simp at h
  | cons c t =>
    refine ⟨c, ?_, dropWhile_head_false _ hs⟩
    rw [List.mem_reverse]
    exact List.mem_cons_self _ _

/-- Membership is preserved backwards through `lineClean`. -/
theorem mem_lineClean {c : Char} {q : List Char} (h : c ∈ lineClean q) : c ∈ q := by
  simp only [lineClean] at h
  split at h
  · exact mem_rstripL h
  · exact mem_rstripL (mem_collapse h)

/-- A newline-free line splits to itself. -/
theorem splitNL_single (p : List Char) (hp : '\n' ∉ p) : splitNL p = [p] := by
  induction p with
  | nil => rfl
  | cons c rest ih =>
    have hc : ¬(c = '\n') := fun h => hp (h ▸ List.mem_cons_self _ _)
    simp only [splitNL]
    rw [if_neg hc, ih (fun hm => hp (List.mem_cons_of_mem _ hm))]

/-- Splitting after a newline-free prefix peels off that prefix. -/
theorem splitNL_append (p rest : List Char) (hp : '\n' ∉ p) :
    splitNL (p ++ '\n' :: rest) = p :: splitNL rest := by
  induction p with
  | nil => simp [splitNL]
  | cons c p2 ih =>
    have hc : ¬(c = '\n') := fun h => hp (h ▸ List.mem_cons_self _ _)
    have ih2 := ih (fun hm => hp (List.mem_cons_of_mem _ hm))
    rw [List.cons_append]
    simp only [splitNL]
    rw [if_neg hc]
    rw [ih2]

/-- `splitNL` is a left inverse of `joinNL` on newline-free lines. -/
theorem splitNL_joinNL : ∀ (ps : List (List Char)), ps ≠ [] →
    (∀ p ∈ ps, '\n' ∉ p) → splitNL (joinNL ps) = ps := by
  intro ps
  induction ps with
  | nil => intro h; exact absurd rfl h
  | cons p ps2 ih =>
    intro _ hnl
    cases ps2 with
    | nil =>
      have : joinNL [p] = p := rfl
      rw [this, splitNL_single p (hnl p (List.mem_cons_self _ _))]
    | cons q ps3 =>
      have hj : joinNL (p :: q :: ps3) = p ++ '\n' :: joinNL (q :: ps3) := rfl
      rw [hj, splitNL_append p _ (hnl p (List.mem_cons_self _ _)),
        ih (List.cons_ne_nil _ _) (fun r hr => hnl r (List.mem_cons_of_mem _ hr))]

/-- C9: PHASE 5 maps each input line through `lineClean` in place, so
the line order is unchanged (line `i` of the output is the cleaned line
`i` of the input), and no non-empty output line consists solely of
whitespace. -/
theorem C9_phase5 (t : List Char) :
    splitNL (phase5 t) = (splitNL t).map lineClean ∧
    (∀ line ∈ splitNL (phase5 t), line ≠ [] → ∃ c ∈ line, isWS c = false) := by
  have h1 : splitNL (phase5 t) = (splitNL t).map lineClean := by
    unfold phase5
    apply splitNL_joinNL
    · intro hmap
      exact splitNL_ne_nil t (List.map_eq_nil_iff.1 hmap)
    · intro p hp
      rcases List.mem_map.1 hp with ⟨q, hq, rfl⟩
      intro hmem
      exact splitNL_no_nl t q hq (mem_lineClean hmem)
  refine ⟨h1, ?_⟩
  intro line hline hne
  rw [h1] at hline
  rcases List.mem_map.1 hline with ⟨q, hq, rfl⟩
  by_cases hb : (stripWS (rstripL q)).isEmpty = true
  · have hlc : lineClean q = rstripL q := by
      simp only [lineClean]
      rw [if_pos hb]
    rw [hlc] at hne ⊢
    exact rstripL_has_nonws q hne
  · have hlc : lineClean q = collapse (rstripL q) := by
      simp only [lineClean]
      rw [if_neg hb]
    rw [hlc] at hne ⊢
    have hr : rstripL q ≠ [] := fun h => hne (by rw [h]; rfl)
    obtain ⟨c, hcm, hcw⟩ := rstripL_has_nonws q hr
    have hcsp : ¬(c = ' ') := fun h => by rw [h] at hcw; exact absurd hcw (by decide)
    exact ⟨c, mem_collapse_keep hcsp hcm, hcw⟩

/-- Witness for `C9_phase5`: a concrete line of a concrete PHASE 5
output contains a non-whitespace character. -/
theorem C9_witness : ∃ c ∈ cs "a b", isWS c = false :=
  (C9_phase5 (cs "a  b \n \nc")).2 (cs "a b") (by decide) (by decide)

/-- Length bound for `dropWhile`. -/
theorem dropWhile_len_le (l : List Char) (p : Char → Bool) :
    (l.dropWhile p).length ≤ l.length := by
  induction l with
  | nil => simp [List.dropWhile]
  | cons c rest ih =>
    rw [List.dropWhile_cons]
    by_cases h : p c = true
    · rw [if_pos h]
      calc (rest.dropWhile p).length ≤ rest.length := ih
        _ ≤ (c :: rest).length := by simp
    · rw [if_neg h]

/-- Length bound for the recursion argument of `subSahihF`. -/
theorem sahih_arg_le (c : Char) (rest : List Char) :
    (((c :: rest).drop 4).dropWhile (fun d => !(d = '\n'))).length ≤ rest.length := by
  calc (((c :: rest).drop 4).dropWhile (fun d => !(d = '\n'))).length
      ≤ ((c :: rest).drop 4).length := dropWhile_len_le _ _
    _ ≤ rest.length := by
        rw [List.drop_succ_cons, List.length_drop]
        omega

/-- The result of `subSahihF` does not depend on the fuel, provided the
fuel covers the input length. -/
theorem subSahihF_fuel : ∀ (f g : Nat) (l : List Char), l.length ≤ f → l.length ≤ g →
    subSahihF f l = subSahihF g l := by
  intro f
  induction f with
  | zero =>
    intro g l hf hg
    have : l = [] := List.length_eq_zero.1 (Nat.le_zero.1 hf)
    subst this
    cases g <;> rfl
  | succ f ih =>
    intro g l hf hg
    cases l with
    | nil => cases g <;> rfl
    | cons c rest =>
      cases g with
      | zero => simp at hg
      | succ g =>
        simp only [subSahihF]
        by_cases hp : kwSahih.isPrefixOf (c :: rest) = true
        · rw [if_pos hp, if_pos hp]
          apply ih
          · calc (((c :: rest).drop 4).dropWhile (fun d => !(d = '\n'))).length
                ≤ rest.length := sahih_arg_le c rest
              _ ≤ f := by simp at hf; omega
          · calc (((c :: rest).drop 4).dropWhile (fun d => !(d = '\n'))).length
                ≤ rest.length := sahih_arg_le c rest
              _ ≤ g := by simp at hg; omega
        · rw [if_neg hp, if_neg hp]
          congr 1
          apply ih
          · simp at hf; omega
          · simp at hg; omega

/-- `dropWhile` on a not-newline predicate jumps over a newline-free
prefix and stops at the newline. -/
theorem dropWhile_append_nl (w : List Char) : ∀ (v : List Char), '\n' ∉ v →
    (v ++ '\n' :: w).dropWhile (fun d => !(d = '\n')) = '\n' :: w := by
  intro v
  induction v with
  | nil =>
    intro _
    rw [List.nil_append, List.dropWhile_cons]
    simp
  | cons c v2 ih =>
    intro hv
    have hc : ¬(c = '\n') := fun h => hv (h ▸ List.mem_cons_self _ _)
    rw [List.cons_append, List.dropWhile_cons, if_pos (by simp [hc])]
    exact ih (fun hm => hv (List.mem_cons_of_mem _ hm))

/-- Fuel-level version of the keyword-to-end-of-line property. -/
theorem subSahihF_kw_line (v w : List Char) (hv : '\n' ∉ v) :
    ∀ f, (kwSahih ++ v ++ '\n' :: w).length ≤ f + 1 →
      subSahihF (f + 1) (kwSahih ++ v ++ '\n' :: w) = '\n' :: subSahihEOL w := by
  intro f hlen
  have hX : kwSahih ++ v ++ '\n' :: w = 'ஸ' :: ('ஹ' :: 'ீ' :: 'ஹ' :: (v ++ '\n' :: w)) := by
    simp [kwSahih, cs]
  have hlen2 : 4 + (v.length + (1 + w.length)) ≤ f + 1 := by
    rw [hX] at hlen
    simp at hlen
    omega
  rw [hX]
  simp only [subSahihF]
  rw [if_pos (by simp [kwSahih, cs, List.isPrefixOf])]
  have hdrop : ('ஸ' :: ('ஹ' :: 'ீ' :: 'ஹ' :: (v ++ '\n' :: w))).drop 4 = v ++ '\n' :: w := rfl
  rw [hdrop, dropWhile_append_nl w v hv]
  cases f with
  | zero => omega
  | succ f2 =>
    simp only [subSahihF]
    rw [if_neg (by simp [kwSahih, cs, List.isPrefixOf])]
    congr 1
    exact subSahihF_fuel f2 w.length w (by omega) (le_refl _)

/-- The keyword substitution of `extract_hadith.py` deletes from the
title keyword to the end of its line only: the line break and all later
lines survive (and are scanned in turn). -/
theorem subSahih_kw_line (v w : List Char) (hv : '\n' ∉ v) :
    subSahihEOL (kwSahih ++ v ++ '\n' :: w) = '\n' :: subSahihEOL w := by
  unfold subSahihEOL
  obtain ⟨f, hf⟩ : ∃ f, (kwSahih ++ v ++ '\n' :: w).length = f + 1 :=
    ⟨(kwSahih ++ v ++ '\n' :: w).length - 1, by simp [kwSahih, cs]⟩
  rw [hf]
  exact subSahihF_kw_line v w hv f (by omega)

/-- C10 (amended): the persistence segmenter stores an accepted body
verbatim (only trimmed), with no truncation at title or book-marker
lines; the standalone segmenter deletes a title-keyword occurrence only
up to the end of its line, keeping the line break and all later lines of
the body, as the concrete run also shows.  (The unamended claim, that
the stored body is truncated at such a line, fails: see the
counterexample.) -/
theorem C10_amended :
    (∀ block next rest book ch, kwHadith.isPrefixOf block = true →
      ∀ d ds, firstDigits block = d :: ds → ¬((stripWS next).length < 30) →
      segLoopE (block :: next :: rest) book ch =
        Except.map
          (fun es => ⟨d :: ds, updBook block book, updChap block ch, stripWS next⟩ :: es)
          (segLoopE (next :: rest) (updBook block book) (updChap block ch))) ∧
    (∀ v w, '\n' ∉ v → subSahihEOL (kwSahih ++ v ++ '\n' :: w) = '\n' :: subSahihEOL w) ∧
    extractLoop [cs "ஹதீஸ் 2",
        cs "அவை நடந்தன ஸஹீஹ் தலை\nமீதி வரி இன்னும் நிறைய எழுத்துகள் வேண்டும் இங்கே சரி"] =
      .ok [(2, cs "அவை நடந்தன \nமீதி வரி இன்னும் நிறைய எழுத்துகள் வேண்டும் இங்கே சரி")] := by
  refine ⟨?_, ?_, rfl⟩
  · intro block next rest book ch hkw d ds hd hlen
    exact seg_keep block next rest book ch hkw d ds hd hlen
  · intro v w hv
    exact subSahih_kw_line v w hv

/-- Witness for `C10_amended` at concrete inputs. -/
theorem C10_witness :
    segLoopE [cs "ஹதீஸ் 5", cs "ஸஹீஹ் வரி\nஅடுத்த வரி நீளமானது இன்னும் எழுத்து"] [] [] =
      Except.map
        (fun es => ⟨'5' :: [], updBook (cs "ஹதீஸ் 5") [], updChap (cs "ஹதீஸ் 5") [],
          stripWS (cs "ஸஹீஹ் வரி\nஅடுத்த வரி நீளமானது இன்னும் எழுத்து")⟩ :: es)
        (segLoopE [cs "ஸஹீஹ் வரி\nஅடுத்த வரி நீளமானது இன்னும் எழுத்து"]
          (updBook (cs "ஹதீஸ் 5") []) (updChap (cs "ஹதீஸ் 5") [])) ∧
    subSahihEOL (kwSahih ++ cs "ab" ++ '\n' :: cs "cd") = '\n' :: subSahihEOL (cs "cd") :=
  ⟨C10_amended.1 (cs "ஹதீஸ் 5") (cs "ஸஹீஹ் வரி\nஅடுத்த வரி நீளமானது இன்னும் எழுத்து") [] [] []
     (by decide) '5' [] (by decide) (by decide),
   C10_amended.2.1 (cs "ab") (cs "cd") (by decide)⟩

/-- Substring absence passes to the tail. -/
theorem containsSub_cons_false {p : List Char} {c : Char} {rest : List Char}
    (h : containsSub p (c :: rest) = false) : containsSub p rest = false := by
  simp only [containsSub, Bool.or_eq_false_iff] at h
  exact h.2

/-- Substring absence denies a prefix match at the head. -/
theorem containsSub_cons_head {p : List Char} {c : Char} {rest : List Char}
    (h : containsSub p (c :: rest) = false) : p.isPrefixOf (c :: rest) = false := by
  simp only [containsSub, Bool.or_eq_false_iff] at h
  exact h.1

/-- `text.replace(a, r)` leaves a buffer without `a` unchanged. -/
theorem replCharStr_id (a : Char) (r : List Char) :
    ∀ (l : List Char), a ∉ l → replCharStr a r l = l := by
  intro l
  induction l with
  | nil => intro _; rfl
  | cons c rest ih =>
    intro h
    have hc : ¬(c = a) := fun hca => h (hca ▸ List.mem_cons_self _ _)
    simp only [replCharStr]
    rw [if_neg hc, ih (fun hm => h (List.mem_cons_of_mem _ hm))]

/-- A context substitution leaves a buffer without the target unchanged. -/
theorem subPoint1Aux_id (pv : Option Char → Bool) (tgt : Char) (nx : Option Char → Bool)
    (rep : Char) : ∀ (l : List Char) (prev : Option Char), tgt ∉ l →
    subPoint1Aux pv tgt nx rep prev l = l := by
  intro l
  induction l with
  | nil => intro _ _; rfl
  | cons c rest ih =>
    intro prev h
    have hc : ¬(c = tgt) := fun hct => h (hct ▸ List.mem_cons_self _ _)
    simp only [subPoint1Aux]
    rw [if_neg (fun hand => hc hand.1), ih (some c) (fun hm => h (List.mem_cons_of_mem _ hm))]

/-- The double-period repair leaves a buffer without `..` unchanged. -/
theorem fixDots_id : ∀ (l : List Char), containsSub ['.', '.'] l = false → fixDots l = l := by
  intro l
  induction l using fixDots.induct with
  | case1 rest hh ih =>
    intro h
    have := containsSub_cons_head h
    simp [List.isPrefixOf] at this
  | case2 rest hh ih =>
    intro h
    have := containsSub_cons_head h
    simp [List.isPrefixOf] at this
  | case3 c rest hcon ih =>
    intro h
    rw [fixDots.eq_2 c rest hcon, ih (containsSub_cons_false h)]
  | case4 => intro _; rfl

/-- The period-comma repair leaves a buffer without `.,` unchanged. -/
theorem subPC_id : ∀ (l : List Char), containsSub ['.', ','] l = false → subPC l = l := by
  intro l
  induction l using subPC.induct with
  | case1 rest ih =>
    intro h
    have := containsSub_cons_head h
    simp [List.isPrefixOf] at this
  | case2 c rest hcon ih =>
    intro h
    rw [subPC.eq_2 c rest hcon, ih (containsSub_cons_false h)]
  | case3 => intro _; rfl

/-- The space collapse leaves a buffer without a double space unchanged. -/
theorem collapse_id : ∀ (l : List Char), containsSub [' ', ' '] l = false → collapse l = l := by
  intro l
  induction l using collapse.induct with
  | case1 rest ih =>
    intro h
    have := containsSub_cons_head h
    simp [List.isPrefixOf] at this
  | case2 c rest hcon ih =>
    intro h
    rw [collapse.eq_2 c rest hcon, ih (containsSub_cons_false h)]
  | case3 => intro _; rfl

/-- Orphan-pattern absence passes to the tail. -/
theorem hasOrphanPat_cons_false {c : Char} {rest : List Char}
    (h : hasOrphanPat (c :: rest) = false) :
    orphanHead (c :: rest) = false ∧ hasOrphanPat rest = false := by
  simp only [hasOrphanPat, Bool.or_eq_false_iff] at h
  exact h

/-- The first orphan-join rule leaves a buffer without the orphan
pattern unchanged. -/
theorem sub1_id : ∀ (l : List Char), hasOrphanPat l = false → sub1 l = l := by
  intro l
  induction l using sub1.induct with
  | case1 a b rest hab ih =>
    intro h
    have ho := (hasOrphanPat_cons_false h).1
    rw [show orphanHead ('\n' :: a :: '\n' :: b :: rest) = (isTamil a && isTamil b) from rfl,
      hab] at ho
    exact absurd ho (by decide)
  | case2 a b rest hab ih =>
    intro h
    rw [sub1.eq_1, if_neg hab, ih (hasOrphanPat_cons_false h).2]
  | case3 c rest hcon ih =>
    intro h
    rw [sub1.eq_2 c rest hcon, ih (hasOrphanPat_cons_false h).2]
  | case4 => intro _; rfl

/-- The second orphan-join rule leaves a buffer without the orphan
pattern unchanged (the lone `உ` is itself a Tamil character). -/
theorem sub2_id : ∀ (l : List Char), hasOrphanPat l = false → sub2 l = l := by
  intro l
  induction l using sub2.induct with
  | case1 b rest hb ih =>
    intro h
    have ho := (hasOrphanPat_cons_false h).1
    rw [show orphanHead ('\n' :: 'உ' :: '\n' :: b :: rest) = (isTamil 'உ' && isTamil b)
        from rfl, show isTamil 'உ' = true from by decide, Bool.true_and, hb] at ho
    exact absurd ho (by decide)
  | case2 b rest hb ih =>
    intro h
    rw [sub2.eq_1, if_neg hb, ih (hasOrphanPat_cons_false h).2]
  | case3 c rest hcon ih =>
    intro h
    rw [sub2.eq_2 c rest hcon, ih (hasOrphanPat_cons_false h).2]
  | case4 => intro _; rfl

/-- A cons distributes over `joinNL` of a cons of lines. -/
theorem joinNL_cons_head (c : Char) (s : List Char) (ss : List (List Char)) :
    joinNL ((c :: s) :: ss) = c :: joinNL (s :: ss) := by
  cases ss with
  | nil => rfl
  | cons s2 ss2 => rfl

/-- `joinNL` is a left inverse of `splitNL`. -/
theorem joinNL_splitNL : ∀ (l : List Char), joinNL (splitNL l) = l := by
  intro l
  induction l with
  | nil => rfl
  | cons c rest ih =>
    simp only [splitNL]
    by_cases hc : c = '\n'
    · rw [if_pos hc]
      subst hc
      cases hs : splitNL rest with
      | nil => exact absurd hs (splitNL_ne_nil rest)
      | cons s ss =>
        rw [hs] at ih
        show '\n' :: joinNL (s :: ss) = '\n' :: rest
        rw [ih]
    · rw [if_neg hc]
      cases hs : splitNL rest with
      | nil => exact absurd hs (splitNL_ne_nil rest)
      | cons s ss =>
        rw [hs] at ih
        show joinNL ((c :: s) :: ss) = c :: rest
        rw [joinNL_cons_head, ih]

/-- `lineClean` leaves a line without trailing whitespace and without a
double space unchanged. -/
theorem lineClean_id (l : List Char) (h1 : rstripL l = l)
    (h2 : containsSub [' ', ' '] l = false) : lineClean l = l := by
  simp only [lineClean]
  rw [h1]
  split
  · rfl
  · exact collapse_id l h2

/-- PHASE 5 leaves a buffer whose lines are all already clean unchanged. -/
theorem phase5_id (t : List Char)
    (h : (splitNL t).all
      (fun line => (rstripL line == line) && !(containsSub [' ', ' '] line)) = true) :
    phase5 t = t := by
  unfold phase5
  have hcong : ∀ q ∈ splitNL t, lineClean q = id q := by
    intro q hq
    have hall := List.all_eq_true.1 h q hq
    simp only [Bool.and_eq_true, beq_iff_eq, Bool.not_eq_true'] at hall
    exact lineClean_id q hall.1 hall.2
  rw [List.map_congr_left hcong, List.map_id, joinNL_splitNL]

/-- A character of the bad-character table does not occur in a buffer
passing the table check. -/
theorem pristine_not_mem (l : List Char)
    (h : l.all (fun c => !(badChars.contains c)) = true)
    (a : Char) (ha : badChars.contains a = true) : a ∉ l := by
  intro hm
  have h2 := List.all_eq_true.1 h a hm
  rw [ha] at h2
  simp at h2

/-- C1 (amended): the repair engine is not idempotent in general (see
the counterexample), but on every buffer containing no corrupted token
— none of the remap source characters (including `+`), no double period
or period-comma, no trailing whitespace or double space on any line,
and no orphan-line pattern — `clean` is the identity, and hence
`clean (clean x) = clean x` for every such buffer. -/
theorem C1_amended (x : List Char) (h : pristine x = true) :
    clean x = x ∧ clean (clean x) = clean x := by
  unfold pristine at h
  simp only [Bool.and_eq_true, Bool.not_eq_true'] at h
  obtain ⟨⟨⟨⟨hA, hB⟩, hC⟩, hD⟩, hE⟩ := h
  have h1 : phase1 x = x := by
    unfold phase1
    rw [replCharStr_id (Char.ofNat 0x7b) (cs "ு") x (pristine_not_mem x hA _ (by decide)),
      replCharStr_id (Char.ofNat 0x7d) (cs "ூ") x (pristine_not_mem x hA _ (by decide)),
      show plusTamil x = x from
        subPoint1Aux_id optTamil '+' optTamil 'ூ' x none (pristine_not_mem x hA '+' (by decide)),
      show plusSpace x = x from
        subPoint1Aux_id optTamil '+' optWS 'ூ' x none (pristine_not_mem x hA '+' (by decide)),
      replCharStr_id (Char.ofNat 0xa5) (cs "ஊ") x (pristine_not_mem x hA _ (by decide)),
      replCharStr_id (Char.ofNat 0xa1) (cs "ணீ") x (pristine_not_mem x hA _ (by decide)),
      replCharStr_id (Char.ofNat 0xbb) (cs "ஷி") x (pristine_not_mem x hA _ (by decide)),
      replCharStr_id (Char.ofNat 0xaa) (cs "சீ") x (pristine_not_mem x hA _ (by decide)),
      replCharStr_id (Char.ofNat 0xe5) (cs "யூ") x (pristine_not_mem x hA _ (by decide))]
  have h2 : phase2 x = x := by
    unfold phase2
    rw [replCharStr_id (Char.ofNat 0x94) [] x (pristine_not_mem x hA _ (by decide)),
      replCharStr_id (Char.ofNat 0x92) [Char.ofNat 39] x (pristine_not_mem x hA _ (by decide)),
      replCharStr_id (Char.ofNat 0x91) [Char.ofNat 39] x (pristine_not_mem x hA _ (by decide)),
      replCharStr_id (Char.ofNat 0x84) [] x (pristine_not_mem x hA _ (by decide))]
  have h3 : phase3 x = x := by
    unfold phase3
    rw [replCharStr_id (Char.ofNat 0x2018) [Char.ofNat 39] x (pristine_not_mem x hA _ (by decide)),
      replCharStr_id (Char.ofNat 0x2019) [Char.ofNat 39] x (pristine_not_mem x hA _ (by decide)),
      replCharStr_id (Char.ofNat 0x201c) [Char.ofNat 34] x (pristine_not_mem x hA _ (by decide)),
      replCharStr_id (Char.ofNat 0x201d) [Char.ofNat 34] x (pristine_not_mem x hA _ (by decide)),
      replCharStr_id (Char.ofNat 0x201e) [] x (pristine_not_mem x hA _ (by decide)),
      replCharStr_id (Char.ofNat 0x2020) [] x (pristine_not_mem x hA _ (by decide))]
  have h4 : phase4 x = x := by
    unfold phase4
    rw [fixDots_id x hB, subPC_id x hC]
  have h5 : phase5 x = x := phase5_id x hD
  have h6 : phase6 x = x := by
    unfold phase6
    rw [sub1_id x hE, sub2_id x hE]
  have hc : clean x = x := by
    unfold clean
    rw [h1, h2, h3, h4, h5, h6]
  exact ⟨hc, by rw [hc]; exact hc⟩

/-- Witness for `C1_amended` at a concrete clean buffer. -/
theorem C1_witness :
    clean (cs "நல்ல வணக்கம்") = cs "நல்ல வணக்கம்" ∧
    clean (clean (cs "நல்ல வணக்கம்")) = clean (cs "நல்ல வணக்கம்") :=
  C1_amended (cs "நல்ல வணக்கம்") (by decide)
